import Mathlib

/-!
# Shallow embedding of the `cacheMachine` Go package

The Go cache is a `map[TKey]entry[TValue]` guarded by a `sync.RWMutex`,
with optional per-entry expiration timers (`time.AfterFunc`) that call
`Cache.Remove(key)` when they fire.

Modelling choices, each justified at the definition it concerns:
* a Go map is modelled as an association list with (invariantly) no
  duplicate keys; `m[k] = v` is `mapSet`, `delete(m, k)` is `mapDel`,
  `v, ok := m[k]` is `mapGet`;
* `time.Duration` (an `int64` count of nanoseconds) is modelled as `Int`;
  no claim exercises duration arithmetic, so overflow is immaterial;
* the runtime's set of armed `time.AfterFunc` timers is modelled
  explicitly as a `pending` list of (timer id, captured key) pairs plus a
  fresh-id counter `nextId`; `timer.Stop()` would delete from `pending`,
  and a timer firing removes itself from `pending` and runs its callback
  `c.Remove(key)`;
* the wall-clock fields `TimeAdded` / `lastReset` of `entry` are omitted:
  no claim depends on their values.
-/

set_option linter.unusedSectionVars false

namespace cacheMachine

section AssocMap

variable {α β γ : Type} [DecidableEq α]

/-- Go map read `v, ok := m[k]`: the (unique) binding of `k`, if any. -/
def mapGet (k : α) : List (α × β) → Option β
  | [] => none
  | p :: rest => if p.1 = k then some p.2 else mapGet k rest

/-- Go map write `m[k] = v`: replace the binding of `k` in place, or append
a fresh binding when `k` is absent. -/
def mapSet (k : α) (v : β) : List (α × β) → List (α × β)
  | [] => [(k, v)]
  | p :: rest => if p.1 = k then (k, v) :: rest else p :: mapSet k v rest

/-- Go map deletion `delete(m, k)`. -/
def mapDel (k : α) (l : List (α × β)) : List (α × β) :=
  l.filter (fun p => decide (¬ p.1 = k))

/-- The key list of an association list (a Go map's key set). -/
def keysOf (l : List (α × β)) : List α :=
  l.map Prod.fst

@[simp]
theorem mapGet_nil (k : α) : mapGet k ([] : List (α × β)) = none := rfl

@[simp]
theorem mapGet_cons (k : α) (p : α × β) (rest : List (α × β)) :
    mapGet k (p :: rest) = if p.1 = k then some p.2 else mapGet k rest := rfl

theorem mapSet_nil (k : α) (v : β) : mapSet k v ([] : List (α × β)) = [(k, v)] := rfl

theorem mapSet_cons (k : α) (v : β) (p : α × β) (rest : List (α × β)) :
    mapSet k v (p :: rest) = if p.1 = k then (k, v) :: rest else p :: mapSet k v rest := rfl

@[simp]
theorem mapDel_nil (k : α) : mapDel k ([] : List (α × β)) = [] := rfl

theorem mapDel_cons (k : α) (p : α × β) (rest : List (α × β)) :
    mapDel k (p :: rest) = if p.1 = k then mapDel k rest else p :: mapDel k rest := by
  simp only [mapDel, List.filter_cons]
  by_cases hpk : p.1 = k <;> simp [hpk]

@[simp]
theorem keysOf_nil : keysOf ([] : List (α × β)) = [] := rfl

@[simp]
theorem keysOf_cons (p : α × β) (rest : List (α × β)) :
    keysOf (p :: rest) = p.1 :: keysOf rest := rfl

theorem keysOf_append (l₁ l₂ : List (α × β)) :
    keysOf (l₁ ++ l₂) = keysOf l₁ ++ keysOf l₂ := by
  simp [keysOf]

theorem mapGet_mapSet (k k' : α) (v : β) (l : List (α × β)) :
    mapGet k' (mapSet k v l) = if k = k' then some v else mapGet k' l := by
  induction l with
  | nil => by_cases hkk : k = k' <;> simp [mapSet_nil, hkk]
  | cons p rest ih =>
    rw [mapSet_cons]
    by_cases hpk : p.1 = k
    · rw [if_pos hpk]
      by_cases hkk : k = k'
      · simp [hkk]
      · have hp' : ¬ p.1 = k' := fun h => hkk (by rw [← hpk]; exact h)
        simp [hkk, hp', hpk]
    · rw [if_neg hpk]
      by_cases hpk' : p.1 = k'
      · have hkk : ¬ k = k' := fun h => hpk (by rw [h]; exact hpk')
        simp [hpk', hkk]
      · simp [hpk', ih]

theorem mapGet_isSome_iff (k : α) (l : List (α × β)) :
    (mapGet k l).isSome ↔ k ∈ keysOf l := by
  induction l with
  | nil => simp
  | cons p rest ih =>
    rw [mapGet_cons, keysOf_cons]
    by_cases hpk : p.1 = k
    · simp [hpk]
    · have hne : ¬ k = p.1 := fun he => hpk he.symm
      rw [if_neg hpk, List.mem_cons, ih]
      constructor
      · intro hm
        exact Or.inr hm
      · rintro (he | hm)
        · exact absurd he hne
        · exact hm

theorem mapGet_eq_none_iff (k : α) (l : List (α × β)) :
    mapGet k l = none ↔ k ∉ keysOf l := by
  rw [← mapGet_isSome_iff]
  cases mapGet k l <;> simp

theorem mapGet_of_mem (k : α) (v : β) (l : List (α × β))
    (hnd : (keysOf l).Nodup) (h : (k, v) ∈ l) : mapGet k l = some v := by
  induction l with
  | nil => cases h
  | cons p rest ih =>
    rw [keysOf_cons] at hnd
    have h1 : p.1 ∉ keysOf rest := (List.nodup_cons.mp hnd).1
    have h2 : (keysOf rest).Nodup := (List.nodup_cons.mp hnd).2
    rcases List.mem_cons.mp h with h3 | h3
    · subst h3
      simp
    · have hk : k ∈ keysOf rest := List.mem_map.mpr ⟨(k, v), h3, rfl⟩
      have hpk : ¬ p.1 = k := fun he => h1 (he ▸ hk)
      simp [hpk, ih h2 h3]

theorem mapGet_append (k : α) (l₁ l₂ : List (α × β)) :
    mapGet k (l₁ ++ l₂) =
      match mapGet k l₁ with
      | some v => some v
      | none => mapGet k l₂ := by
  induction l₁ with
  | nil => simp
  | cons p rest ih =>
    by_cases hpk : p.1 = k
    · simp [hpk]
    · simp [hpk, ih]

theorem keysOf_mapSet_of_mem (k : α) (v : β) (l : List (α × β))
    (h : k ∈ keysOf l) : keysOf (mapSet k v l) = keysOf l := by
  induction l with
  | nil => simp at h
  | cons p rest ih =>
    rw [mapSet_cons]
    by_cases hpk : p.1 = k
    · rw [if_pos hpk, keysOf_cons, keysOf_cons, hpk]
    · rw [if_neg hpk]
      have h' : k ∈ keysOf rest := by
        rcases List.mem_cons.mp (by rw [keysOf_cons] at h; exact h) with h1 | h1
        · exact absurd h1.symm hpk
        · exact h1
      rw [keysOf_cons, keysOf_cons, ih h']

theorem mapSet_of_not_mem (k : α) (v : β) (l : List (α × β))
    (h : k ∉ keysOf l) : mapSet k v l = l ++ [(k, v)] := by
  induction l with
  | nil => simp [mapSet_nil]
  | cons p rest ih =>
    have hpk : ¬ p.1 = k := by
      intro he
      exact h (by rw [keysOf_cons, he]; exact List.mem_cons_self k (keysOf rest))
    have h' : k ∉ keysOf rest := by
      intro hm
      exact h (by rw [keysOf_cons]; exact List.mem_cons_of_mem p.1 hm)
    rw [mapSet_cons, if_neg hpk, ih h']
    simp

theorem length_mapSet (k : α) (v : β) (l : List (α × β)) :
    (mapSet k v l).length =
      if k ∈ keysOf l then l.length else l.length + 1 := by
  by_cases h : k ∈ keysOf l
  · rw [if_pos h]
    have hkeys := keysOf_mapSet_of_mem k v l h
    have hlen : (keysOf (mapSet k v l)).length = (keysOf l).length := by rw [hkeys]
    simpa only [keysOf, List.length_map] using hlen
  · rw [if_neg h, mapSet_of_not_mem k v l h]
    simp

theorem keysOf_mapSet_nodup (k : α) (v : β) (l : List (α × β))
    (hnd : (keysOf l).Nodup) : (keysOf (mapSet k v l)).Nodup := by
  by_cases h : k ∈ keysOf l
  · rw [keysOf_mapSet_of_mem k v l h]
    exact hnd
  · rw [mapSet_of_not_mem k v l h, keysOf_append]
    apply List.Nodup.append hnd (List.nodup_singleton k)
    intro a ha hb
    rw [List.mem_singleton] at hb
    subst hb
    exact h ha

theorem keysOf_mapSet_toFinset (k : α) (v : β) (l : List (α × β)) :
    (keysOf (mapSet k v l)).toFinset = insert k (keysOf l).toFinset := by
  by_cases h : k ∈ keysOf l
  · rw [keysOf_mapSet_of_mem k v l h]
    have hk : k ∈ (keysOf l).toFinset := List.mem_toFinset.mpr h
    rw [Finset.insert_eq_self.mpr hk]
  · rw [mapSet_of_not_mem k v l h, keysOf_append]
    ext a
    rw [show keysOf [(k, v)] = [k] from rfl]
    simp [or_comm]

@[simp]
theorem mapGet_mapDel_self (k : α) (l : List (α × β)) :
    mapGet k (mapDel k l) = none := by
  rw [mapGet_eq_none_iff]
  intro hm
  rcases List.mem_map.mp hm with ⟨p, hp, hfst⟩
  simp only [mapDel] at hp
  have hpred := List.of_mem_filter hp
  simp only [decide_eq_true_eq] at hpred
  exact hpred hfst

theorem mapGet_mapDel_ne (k k' : α) (l : List (α × β)) (h : ¬ k' = k) :
    mapGet k' (mapDel k l) = mapGet k' l := by
  induction l with
  | nil => simp
  | cons p rest ih =>
    rw [mapDel_cons]
    by_cases hpk : p.1 = k
    · have hp' : ¬ p.1 = k' := fun he => h (by rw [← he]; exact hpk)
      rw [if_pos hpk, ih, mapGet_cons, if_neg hp']
    · rw [if_neg hpk, mapGet_cons, mapGet_cons, ih]

theorem mapDel_of_not_mem (k : α) (l : List (α × β)) (h : k ∉ keysOf l) :
    mapDel k l = l := by
  simp only [mapDel]
  apply List.filter_eq_self.mpr
  intro p hp
  have hne : ¬ p.1 = k := by
    intro he
    apply h
    rw [← he]
    exact List.mem_map.mpr ⟨p, hp, rfl⟩
  simpa using hne

theorem mapDel_sublist (k : α) (l : List (α × β)) : (mapDel k l).Sublist l :=
  List.filter_sublist l

theorem keysOf_mapDel_nodup (k : α) (l : List (α × β))
    (hnd : (keysOf l).Nodup) : (keysOf (mapDel k l)).Nodup :=
  hnd.sublist ((mapDel_sublist k l).map Prod.fst)

theorem mapDel_idem (k : α) (l : List (α × β)) :
    mapDel k (mapDel k l) = mapDel k l := by
  simp only [mapDel]
  apply List.filter_eq_self.mpr
  intro p hp
  exact (List.mem_filter.mp hp).2

theorem length_mapDel_of_mem (k : α) (l : List (α × β))
    (hnd : (keysOf l).Nodup) (h : k ∈ keysOf l) :
    (mapDel k l).length + 1 = l.length := by
  induction l with
  | nil => simp at h
  | cons p rest ih =>
    rw [keysOf_cons] at hnd
    have h1 : p.1 ∉ keysOf rest := (List.nodup_cons.mp hnd).1
    have h2 : (keysOf rest).Nodup := (List.nodup_cons.mp hnd).2
    rw [mapDel_cons]
    by_cases hpk : p.1 = k
    · rw [if_pos hpk]
      have hknot : k ∉ keysOf rest := hpk ▸ h1
      rw [mapDel_of_not_mem k rest hknot]
      simp
    · rw [if_neg hpk]
      have h' : k ∈ keysOf rest := by
        rcases List.mem_cons.mp (by rw [keysOf_cons] at h; exact h) with h3 | h3
        · exact absurd h3.symm hpk
        · exact h3
      have := ih h2 h'
      simp only [List.length_cons]
      omega

theorem foldl_mapSet_fresh (f : α × γ → β) (l : List (α × γ)) :
    ∀ acc : List (α × β),
      ((l.map Prod.fst).Nodup) →
      (∀ p ∈ l, p.1 ∉ keysOf acc) →
      l.foldl (fun a p => mapSet p.1 (f p) a) acc
        = acc ++ l.map (fun p => (p.1, f p)) := by
  induction l with
  | nil =>
    intro acc _ _
    simp
  | cons p rest ih =>
    intro acc hnd hdisj
    rw [List.map_cons] at hnd
    have hp : p.1 ∉ keysOf acc := hdisj p (List.mem_cons_self p rest)
    have hnd' : (rest.map Prod.fst).Nodup := (List.nodup_cons.mp hnd).2
    have hpnot : p.1 ∉ rest.map Prod.fst := (List.nodup_cons.mp hnd).1
    have hdisj' : ∀ q ∈ rest, q.1 ∉ keysOf (acc ++ [(p.1, f p)]) := by
      intro q hq
      rw [keysOf_append, List.mem_append]
      rintro (hc | hc)
      · exact hdisj q (List.mem_cons_of_mem p hq) hc
      · rw [show keysOf [(p.1, f p)] = [p.1] from rfl, List.mem_singleton] at hc
        exact hpnot (hc ▸ List.mem_map.mpr ⟨q, hq, rfl⟩)
    calc (p :: rest).foldl (fun a q => mapSet q.1 (f q) a) acc
        = rest.foldl (fun a q => mapSet q.1 (f q) a) (mapSet p.1 (f p) acc) := by
          rw [List.foldl_cons]
      _ = rest.foldl (fun a q => mapSet q.1 (f q) a) (acc ++ [(p.1, f p)]) := by
          rw [mapSet_of_not_mem p.1 (f p) acc hp]
      _ = acc ++ [(p.1, f p)] ++ rest.map (fun q => (q.1, f q)) := ih _ hnd' hdisj'
      _ = acc ++ (p :: rest).map (fun q => (q.1, f q)) := by simp

theorem foldl_mapSet_keyfn (g : α → β) (k : α) (d : List α) :
    ∀ acc : List (α × β),
      mapGet k (d.foldl (fun a x => mapSet x (g x) a) acc)
        = if k ∈ d then some (g k) else mapGet k acc := by
  induction d with
  | nil =>
    intro acc
    simp
  | cons x rest ih =>
    intro acc
    rw [List.foldl_cons, ih]
    by_cases hx : k ∈ rest
    · simp [hx]
    · by_cases hxk : x = k
      · subst hxk
        simp [hx, mapGet_mapSet]
      · have hne : ¬ k = x := fun h => hxk h.symm
        simp [hx, hxk, mapGet_mapSet, hne]

end AssocMap

/-- Go `Requirements`: the cache-wide configuration.  `DefaultTimeout` is a
`time.Duration` (modelled as `Int` nanoseconds); `timeoutInUse` is the
unexported flag set by `makeRequirementsSensible`. -/
structure Requirements where
  DefaultTimeout : Int
  timeoutInUse : Bool
deriving DecidableEq, Repr

/-- Go `entry[TValue]`.  `Val` and `TimeoutDuration` are the source's fields;
`timerId` models the `timer *time.Timer` pointer as the id of the armed
`time.AfterFunc` timer (or `none` when the pointer is nil).  The wall-clock
fields `TimeAdded` and `lastReset` are omitted: no claim depends on them. -/
structure entry (V : Type) where
  Val : V
  TimeoutDuration : Int
  timerId : Option Nat
deriving DecidableEq, Repr

/-- Go `cache[TKey, TValue]` / `Cache[TKey, TValue]`.  `Requirements` and
`data` are the source's fields (`data map[TKey]entry[TValue]` as a no-dup
association list).  `pending` and `nextId` model the runtime's set of armed
`time.AfterFunc` timers: each armed timer is a pair (timer id, the key its
callback `func() { c.Remove(key) }` captured); `nextId` is the next fresh
timer id.  The `sync.RWMutex` has no state-transformer content; which lock
each public method takes is modelled separately (see `LockAcquired`). -/
structure Cache (K V : Type) where
  Requirements : Requirements
  data : List (K × entry V)
  pending : List (Nat × K)
  nextId : Nat
deriving DecidableEq, Repr

variable {K V : Type} [DecidableEq K] [DecidableEq V]

/-- The Go zero value of `entry[TValue]`: what `c.data[k]` yields for an
absent key (`Val` is the zero value of `TValue`, modelled via `Inhabited`). -/
def zeroEntry [Inhabited V] : entry V :=
  { Val := default, TimeoutDuration := 0, timerId := none }

/-- `Cache.add` (private): builds a fresh entry with the cache-wide default
timeout and, if `timeoutInUse`, arms a `time.AfterFunc` timer whose callback
removes `key`; then `c.data[key] = e`.  Note: the previous entry under `key`
(if any) is simply overwritten — its armed timer is NOT stopped. -/
def Cache.add (c : Cache K V) (key : K) (val : V) : Cache K V :=
  let e : entry V :=
    { Val := val,
      TimeoutDuration := c.Requirements.DefaultTimeout,
      timerId := if c.Requirements.timeoutInUse then some c.nextId else none }
  if c.Requirements.timeoutInUse then
    { c with data := mapSet key e c.data,
             pending := c.pending ++ [(c.nextId, key)],
             nextId := c.nextId + 1 }
  else
    { c with data := mapSet key e c.data }

/-- `Cache.remove` (private): `delete(c.data, key)`.  It does not stop the
entry's timer. -/
def Cache.remove (c : Cache K V) (key : K) : Cache K V :=
  { c with data := mapDel key c.data }

/-- `Cache.copyValues` (private): builds a fresh `map[TKey]TValue` holding
`cpy[key] = entry.Val` for every entry. -/
def Cache.copyValues (c : Cache K V) : List (K × V) :=
  c.data.foldl (fun cpy p => mapSet p.1 p.2.Val cpy) []

/-- `Cache.reset` (private): replaces `data` with a fresh empty map.  The
pending timers are untouched (they are orphaned and will fire harmlessly). -/
def Cache.reset (c : Cache K V) : Cache K V :=
  { c with data := [] }

/-- `Cache.Add` (public): takes the write lock and calls `add`. -/
def Cache.Add (c : Cache K V) (key : K) (val : V) : Cache K V :=
  c.add key val

/-- `Cache.AddBulk` (public): under one write lock, `add`s every pair of the
argument map.  A nil map and an empty map both contribute zero iterations;
both are modelled as `[]`.  The iteration order of a Go map is unspecified;
the model fixes the list order. -/
def Cache.AddBulk (c : Cache K V) (d : List (K × V)) : Cache K V :=
  d.foldl (fun c p => c.add p.1 p.2) c

/-- `Cache.Remove` (public): takes the write lock and calls `remove`. -/
def Cache.Remove (c : Cache K V) (key : K) : Cache K V :=
  c.remove key

/-- `Cache.RemoveBulk` (public): returns unchanged on a nil/empty slice,
else `remove`s each key under one write lock. -/
def Cache.RemoveBulk (c : Cache K V) (keys : List K) : Cache K V :=
  if keys.length < 1 then c
  else keys.foldl (fun c k => c.remove k) c

/-- `Cache.Get` (public): `entry, exist := c.data[key]; return entry.Val,
exist` — an absent key yields the zero value and `false`. -/
def Cache.Get [Inhabited V] (c : Cache K V) (key : K) : V × Bool :=
  (((mapGet key c.data).getD zeroEntry).Val, (mapGet key c.data).isSome)

/-- `Cache.GetBulk` (public): `results[k] = c.data[k].Val` for each requested
key — an absent key contributes the zero value of `TValue`, with no flag. -/
def Cache.GetBulk [Inhabited V] (c : Cache K V) (d : List K) : List (K × V) :=
  d.foldl (fun results k => mapSet k ((mapGet k c.data).getD zeroEntry).Val results) []

/-- `Cache.GetAndRemove` (public): reads the entry, removes the key, and
returns (value, existed) — all under one write lock. -/
def Cache.GetAndRemove [Inhabited V] (c : Cache K V) (key : K) :
    (V × Bool) × Cache K V :=
  ((((mapGet key c.data).getD zeroEntry).Val, (mapGet key c.data).isSome),
    c.remove key)

/-- `Cache.GetAll` (public): takes the read lock and returns `copyValues`. -/
def Cache.GetAll (c : Cache K V) : List (K × V) :=
  c.copyValues

/-- `Cache.GetAllAndRemove` (public): under one write lock, copies all values
and then `reset`s the cache; returns the copy and the final cache state. -/
def Cache.GetAllAndRemove (c : Cache K V) : List (K × V) × Cache K V :=
  (c.copyValues, c.reset)

/-- The loop of `Cache.GetRandomSamples`: ranges over the live map,
breaking as soon as the remaining count `n` drops below 1. -/
def grsLoop : Int → List (K × entry V) → List (K × V) → List (K × V)
  | _, [], results => results
  | n, p :: rest, results =>
    if n < 1 then results else grsLoop (n - 1) rest (mapSet p.1 p.2.Val results)

/-- `Cache.GetRandomSamples` (public): returns up to `n` entries in map
iteration order (the model's list order).  Note: the source acquires no lock
here — see `GetRandomSamplesIteration`. -/
def Cache.GetRandomSamples (c : Cache K V) (n : Int) : List (K × V) :=
  grsLoop n c.data []

/-- `Cache.Exist` (public). -/
def Cache.Exist (c : Cache K V) (key : K) : Bool :=
  (mapGet key c.data).isSome

/-- `Cache.Count` (public): `len(c.data)`. -/
def Cache.Count (c : Cache K V) : Nat :=
  c.data.length

/-- `Cache.Reset` (public): takes the write lock and calls `reset`. -/
def Cache.Reset (c : Cache K V) : Cache K V :=
  c.reset

/-- A `time.AfterFunc` timer with id `t` fires: the runtime retires the
timer and runs its callback `c.Remove(key)` for the key it captured. -/
def Cache.fireTimer (c : Cache K V) (t : Nat) : Cache K V :=
  match mapGet t c.pending with
  | none => c
  | some key =>
    let c' := c.remove key
    { c' with pending := mapDel t c'.pending }

/-- `defaultRequirements`: the package-level zero `Requirements`. -/
def defaultRequirements : Requirements :=
  { DefaultTimeout := 0, timeoutInUse := false }

/-- `makeRequirementsSensible`: sets `timeoutInUse` to
`r.DefaultTimeout.String() != "0s"`.  `time.Duration.String()` renders `"0s"`
exactly for the zero duration, so the flag is `DefaultTimeout ≠ 0`. -/
def makeRequirementsSensible (r : Requirements) : Requirements :=
  { r with timeoutInUse := decide (¬ r.DefaultTimeout = 0) }

/-- `New`: a nil `*Requirements` falls back to `defaultRequirements`; the
requirements are made sensible once and stored; the cache starts empty. -/
def New (r : Option Requirements) : Cache K V :=
  { Requirements := makeRequirementsSensible (r.getD defaultRequirements),
    data := [],
    pending := [],
    nextId := 0 }

/-- `Merge(cache1, cache2)`: `cache1.AddBulk(cache2.GetAll())`.  The result
pairs the final states of both caches: only `cache1` is written to; `cache2`
is read through the non-mutating `GetAll`. -/
def Merge (cache1 cache2 : Cache K V) : Cache K V × Cache K V :=
  (cache1.AddBulk cache2.GetAll, cache2)

/-- The public mutating operations of the cache (plus a timer callback
firing, which re-enters `Remove`). -/
inductive MutOp (K V : Type) where
  | addOp (key : K) (val : V)
  | addBulkOp (d : List (K × V))
  | removeOp (key : K)
  | removeBulkOp (keys : List K)
  | resetOp
  | getAndRemoveOp (key : K)
  | getAllAndRemoveOp
  | timerFire (t : Nat)
deriving DecidableEq, Repr

/-- Apply one mutating operation to the cache, keeping only the cache state
(the values returned to the caller are dropped). -/
def Cache.applyOp [Inhabited V] (c : Cache K V) : MutOp K V → Cache K V
  | MutOp.addOp key val => c.Add key val
  | MutOp.addBulkOp d => c.AddBulk d
  | MutOp.removeOp key => c.Remove key
  | MutOp.removeBulkOp keys => c.RemoveBulk keys
  | MutOp.resetOp => c.Reset
  | MutOp.getAndRemoveOp key => (c.GetAndRemove key).2
  | MutOp.getAllAndRemoveOp => c.GetAllAndRemove.2
  | MutOp.timerFire t => c.fireTimer t

/-- Apply a sequence of mutating operations, first to last. -/
def Cache.applyOps [Inhabited V] (c : Cache K V) (ops : List (MutOp K V)) : Cache K V :=
  ops.foldl (fun c op => c.applyOp op) c

/-- The well-formedness invariant of the Go map: no duplicate keys. -/
def WF (c : Cache K V) : Prop :=
  (keysOf c.data).Nodup

instance (c : Cache K V) : Decidable (WF c) :=
  inferInstanceAs (Decidable ((keysOf c.data).Nodup))

/-- The number of keys currently present in the map (as a set). -/
def presentKeyCount (c : Cache K V) : Nat :=
  (keysOf c.data).toFinset.card

section Traces

/-- A trace of the two single-key mutations of claim C1. -/
inductive TraceOp (K V : Type) where
  | addT (key : K) (val : V)
  | removeT (key : K)
deriving DecidableEq, Repr

/-- Run a trace of `Add`/`Remove` calls against a cache. -/
def runTrace (c : Cache K V) : List (TraceOp K V) → Cache K V
  | [] => c
  | TraceOp.addT k v :: rest => runTrace (c.Add k v) rest
  | TraceOp.removeT k :: rest => runTrace (c.Remove k) rest

/-- The number of `Add` calls in a trace. -/
def numAdds : List (TraceOp K V) → Nat
  | [] => 0
  | TraceOp.addT _ _ :: rest => numAdds rest + 1
  | TraceOp.removeT _ :: rest => numAdds rest

/-- The number of `Remove` calls in a trace that targeted a key present at
the moment of the call. -/
def presentRemoves (c : Cache K V) : List (TraceOp K V) → Nat
  | [] => 0
  | TraceOp.addT k v :: rest => presentRemoves (c.Add k v) rest
  | TraceOp.removeT k :: rest =>
    (if (mapGet k c.data).isSome then 1 else 0) + presentRemoves (c.Remove k) rest

/-- The keys targeted by the `Add` calls of a trace. -/
def addKeys : List (TraceOp K V) → List K
  | [] => []
  | TraceOp.addT k _ :: rest => k :: addKeys rest
  | TraceOp.removeT _ :: rest => addKeys rest

end Traces

section LockDiscipline

/-- Which of the store's locks a method body acquires: the write lock
(`c.mx.Lock()`), the read lock (`c.mx.RLock()`), or no lock at all. -/
inductive LockAcquired where
  | noLock
  | readLock
  | writeLock
deriving DecidableEq, Repr

/-- The lock discipline of a method that iterates entries for snapshotting:
which lock its body acquires, and whether the loop ranges over the live
`c.data` (as opposed to a previously copied snapshot). -/
structure SnapshotIteration where
  lock : LockAcquired
  overLiveMap : Bool
deriving DecidableEq, Repr

/-- `Cache.GetAll`, as written: `c.mx.RLock(); defer c.mx.RUnlock(); return
c.copyValues()` — `copyValues` ranges over the live `c.data` while the read
lock is held. -/
def GetAllIteration : SnapshotIteration :=
  { lock := LockAcquired.readLock, overLiveMap := true }

/-- `Cache.GetAllAndRemove`, as written: `c.mx.Lock(); defer c.mx.Unlock()`
around `copyValues` and `reset` — iterates the live map under the write
lock. -/
def GetAllAndRemoveIteration : SnapshotIteration :=
  { lock := LockAcquired.writeLock, overLiveMap := true }

/-- `Cache.GetRandomSamples`, as written: its body contains no lock call at
all; the `for key, entry := range c.data` loop ranges over the live map. -/
def GetRandomSamplesIteration : SnapshotIteration :=
  { lock := LockAcquired.noLock, overLiveMap := true }

/-- The discipline the spec demands: iterating the live map requires holding
some lock. -/
def lockedIteration (i : SnapshotIteration) : Bool :=
  !i.overLiveMap || !(i.lock == LockAcquired.noLock)

end LockDiscipline

section CacheLemmas

theorem mapGet_mapPair {α β γ : Type} [DecidableEq α] (g : β → γ) (k : α)
    (l : List (α × β)) :
    mapGet k (l.map (fun p => (p.1, g p.2))) = (mapGet k l).map g := by
  induction l with
  | nil => simp
  | cons p rest ih =>
    by_cases hpk : p.1 = k
    · simp [hpk]
    · simp [hpk, ih]

theorem keysOf_mapPair {α β γ : Type} [DecidableEq α] (g : β → γ)
    (l : List (α × β)) :
    keysOf (l.map (fun p => (p.1, g p.2))) = keysOf l := by
  simp [keysOf, Function.comp]

theorem add_data (c : Cache K V) (k : K) (v : V) :
    (c.add k v).data = mapSet k
      { Val := v, TimeoutDuration := c.Requirements.DefaultTimeout,
        timerId := if c.Requirements.timeoutInUse then some c.nextId else none }
      c.data := by
  by_cases h : c.Requirements.timeoutInUse <;> simp [Cache.add, h]

theorem add_Requirements (c : Cache K V) (k : K) (v : V) :
    (c.add k v).Requirements = c.Requirements := by
  by_cases h : c.Requirements.timeoutInUse <;> simp [Cache.add, h]

theorem add_pending (c : Cache K V) (k : K) (v : V) :
    (c.add k v).pending =
      if c.Requirements.timeoutInUse then c.pending ++ [(c.nextId, k)]
      else c.pending := by
  by_cases h : c.Requirements.timeoutInUse <;> simp [Cache.add, h]

theorem mapGet_add_Val (c : Cache K V) (k k' : K) (v : V) :
    (mapGet k' (c.add k v).data).map entry.Val =
      if k = k' then some v else (mapGet k' c.data).map entry.Val := by
  rw [add_data, mapGet_mapSet]
  by_cases hkk : k = k' <;> simp [hkk]

theorem mapGet_add_ne (c : Cache K V) (k k' : K) (v : V) (h : ¬ k = k') :
    mapGet k' (c.add k v).data = mapGet k' c.data := by
  rw [add_data, mapGet_mapSet, if_neg h]

theorem count_add (c : Cache K V) (k : K) (v : V) :
    (c.add k v).Count =
      if k ∈ keysOf c.data then c.Count else c.Count + 1 := by
  simp only [Cache.Count, add_data, length_mapSet]

theorem keysOf_add_toFinset (c : Cache K V) (k : K) (v : V) :
    (keysOf (c.add k v).data).toFinset = insert k (keysOf c.data).toFinset := by
  rw [add_data, keysOf_mapSet_toFinset]

theorem WF_add (c : Cache K V) (k : K) (v : V) (hw : WF c) : WF (c.add k v) := by
  rw [WF, add_data]
  exact keysOf_mapSet_nodup k _ c.data hw

theorem WF_remove (c : Cache K V) (k : K) (hw : WF c) : WF (c.remove k) :=
  keysOf_mapDel_nodup k c.data hw

theorem count_eq_presentKeyCount (c : Cache K V) (hw : WF c) :
    c.Count = presentKeyCount c := by
  rw [Cache.Count, presentKeyCount, List.toFinset_card_of_nodup hw]
  simp [keysOf]

theorem copyValues_eq (c : Cache K V) (hw : WF c) :
    c.copyValues = c.data.map (fun p => (p.1, p.2.Val)) := by
  have h := foldl_mapSet_fresh (fun p : K × entry V => p.2.Val) c.data [] hw
    (by intro p _; simp)
  simpa using h

theorem mapGet_copyValues (c : Cache K V) (k : K) (hw : WF c) :
    mapGet k c.copyValues = (mapGet k c.data).map entry.Val := by
  rw [copyValues_eq c hw, mapGet_mapPair]

theorem keysOf_copyValues (c : Cache K V) (hw : WF c) :
    keysOf c.copyValues = keysOf c.data := by
  rw [copyValues_eq c hw, keysOf_mapPair]

theorem AddBulk_nil (c : Cache K V) : c.AddBulk [] = c := rfl

theorem AddBulk_Requirements (c : Cache K V) (d : List (K × V)) :
    (c.AddBulk d).Requirements = c.Requirements := by
  induction d generalizing c with
  | nil => rfl
  | cons p rest ih =>
    show ((c.add p.1 p.2).AddBulk rest).Requirements = c.Requirements
    rw [ih, add_Requirements]

theorem AddBulk_cons (c : Cache K V) (p : K × V) (rest : List (K × V)) :
    c.AddBulk (p :: rest) = (c.add p.1 p.2).AddBulk rest := rfl

theorem mapGet_AddBulk_not_mem (c : Cache K V) (d : List (K × V)) (k : K)
    (h : k ∉ keysOf d) :
    mapGet k (c.AddBulk d).data = mapGet k c.data := by
  induction d generalizing c with
  | nil => rfl
  | cons p rest ih =>
    rw [keysOf_cons] at h
    have hp : ¬ p.1 = k := fun he => h (he ▸ List.mem_cons_self p.1 (keysOf rest))
    have hr : k ∉ keysOf rest := fun hm => h (List.mem_cons_of_mem p.1 hm)
    rw [AddBulk_cons, ih _ hr, mapGet_add_ne c p.1 k p.2 hp]

theorem mapGet_AddBulk_mem (c : Cache K V) (d : List (K × V)) (k : K) (v : V)
    (hnd : (keysOf d).Nodup) (h : mapGet k d = some v) :
    (mapGet k (c.AddBulk d).data).map entry.Val = some v := by
  induction d generalizing c with
  | nil => cases h
  | cons p rest ih =>
    rw [keysOf_cons] at hnd
    have h1 : p.1 ∉ keysOf rest := (List.nodup_cons.mp hnd).1
    have h2 : (keysOf rest).Nodup := (List.nodup_cons.mp hnd).2
    rw [mapGet_cons] at h
    by_cases hpk : p.1 = k
    · rw [if_pos hpk] at h
      have hk : k ∉ keysOf rest := hpk ▸ h1
      rw [AddBulk_cons, mapGet_AddBulk_not_mem _ rest k hk]
      have := mapGet_add_Val c p.1 k p.2
      rw [if_pos hpk] at this
      rw [this]
      exact congrArg some (Option.some.inj h)
    · rw [if_neg hpk] at h
      rw [AddBulk_cons]
      exact ih _ h2 h

theorem keysOf_AddBulk_toFinset (c : Cache K V) (d : List (K × V)) :
    (keysOf (c.AddBulk d).data).toFinset =
      (keysOf c.data).toFinset ∪ (keysOf d).toFinset := by
  induction d generalizing c with
  | nil =>
    rw [AddBulk_nil]
    simp
  | cons p rest ih =>
    rw [AddBulk_cons, ih, keysOf_add_toFinset, keysOf_cons, List.toFinset_cons,
      Finset.insert_union, Finset.union_insert]

theorem WF_AddBulk (c : Cache K V) (d : List (K × V)) (hw : WF c) :
    WF (c.AddBulk d) := by
  induction d generalizing c with
  | nil => exact hw
  | cons p rest ih =>
    rw [AddBulk_cons]
    exact ih _ (WF_add c p.1 p.2 hw)

theorem WF_RemoveBulk (c : Cache K V) (keys : List K) (hw : WF c) :
    WF (c.RemoveBulk keys) := by
  rw [Cache.RemoveBulk]
  by_cases hk : keys.length < 1
  · rwa [if_pos hk]
  · rw [if_neg hk]
    clear hk
    induction keys generalizing c with
    | nil => exact hw
    | cons k rest ih =>
      rw [List.foldl_cons]
      exact ih _ (WF_remove c k hw)

theorem WF_reset (c : Cache K V) : WF c.reset := by
  rw [WF]
  exact List.nodup_nil

theorem WF_fireTimer (c : Cache K V) (t : Nat) (hw : WF c) :
    WF (c.fireTimer t) := by
  rw [Cache.fireTimer]
  cases mapGet t c.pending with
  | none => exact hw
  | some key => exact WF_remove c key hw

theorem WF_applyOp [Inhabited V] (c : Cache K V) (op : MutOp K V) (hw : WF c) :
    WF (c.applyOp op) := by
  cases op with
  | addOp key val => exact WF_add c key val hw
  | addBulkOp d => exact WF_AddBulk c d hw
  | removeOp key => exact WF_remove c key hw
  | removeBulkOp keys => exact WF_RemoveBulk c keys hw
  | resetOp => exact WF_reset c
  | getAndRemoveOp key => exact WF_remove c key hw
  | getAllAndRemoveOp => exact WF_reset c
  | timerFire t => exact WF_fireTimer c t hw

theorem Requirements_applyOp [Inhabited V] (c : Cache K V) (op : MutOp K V) :
    (c.applyOp op).Requirements = c.Requirements := by
  cases op with
  | addOp key val => exact add_Requirements c key val
  | addBulkOp d => exact AddBulk_Requirements c d
  | removeOp key => rfl
  | removeBulkOp keys =>
    show (c.RemoveBulk keys).Requirements = c.Requirements
    rw [Cache.RemoveBulk]
    by_cases hk : keys.length < 1
    · rw [if_pos hk]
    · rw [if_neg hk]
      clear hk
      induction keys generalizing c with
      | nil => rfl
      | cons k rest ih =>
        rw [List.foldl_cons]
        exact ih (c.remove k)
  | resetOp => rfl
  | getAndRemoveOp key => rfl
  | getAllAndRemoveOp => rfl
  | timerFire t =>
    show (c.fireTimer t).Requirements = c.Requirements
    rw [Cache.fireTimer]
    cases mapGet t c.pending <;> rfl

theorem remove_absent (c : Cache K V) (k : K) (h : mapGet k c.data = none) :
    c.remove k = c := by
  rw [Cache.remove, mapDel_of_not_mem k c.data (mapGet_eq_none_iff k c.data |>.mp h)]

theorem remove_remove (c : Cache K V) (k : K) :
    (c.remove k).remove k = c.remove k := by
  simp [Cache.remove, mapDel_idem]

theorem count_remove_present (c : Cache K V) (k : K) (hw : WF c)
    (h : k ∈ keysOf c.data) : (c.remove k).Count + 1 = c.Count :=
  length_mapDel_of_mem k c.data hw h

end CacheLemmas

section Claims

/-- Claim C3: `GetAllAndRemove()` returns a map containing exactly the
key/value pairs present in the cache at the moment of the call, each exactly
once (no duplicate keys, and lookup in the result agrees with lookup in the
cache), and afterwards the cache is empty: `Count() = 0` and `GetAll()`
returns an empty map. -/
theorem getAllAndRemove_drains (c : Cache K V) (hw : WF c) :
    (keysOf c.GetAllAndRemove.1).Nodup
    ∧ (∀ k : K, mapGet k c.GetAllAndRemove.1 = (mapGet k c.data).map entry.Val)
    ∧ c.GetAllAndRemove.2.Count = 0
    ∧ c.GetAllAndRemove.2.GetAll = [] := by
  refine ⟨?_, ?_, rfl, rfl⟩
  · show (keysOf c.copyValues).Nodup
    rw [keysOf_copyValues c hw]
    exact hw
  · intro k
    exact mapGet_copyValues c k hw

theorem getAllAndRemove_drains_witness :
    WF ((New none : Cache Nat Nat).Add 1 10 |>.Add 2 20)
    ∧ (keysOf ((New none : Cache Nat Nat).Add 1 10 |>.Add 2 20).GetAllAndRemove.1).Nodup
    ∧ ((New none : Cache Nat Nat).Add 1 10 |>.Add 2 20).GetAllAndRemove.2.Count = 0 := by
  refine ⟨by decide, ?_⟩
  have h := getAllAndRemove_drains ((New none : Cache Nat Nat).Add 1 10 |>.Add 2 20)
    (by decide)
  exact ⟨h.1, h.2.2.1⟩

/-- Claim C4: `AddBulk(m)` on a freshly constructed empty cache followed by
`GetAll()` returns a mapping equal to `m` (lookup-equal: same key set and
same value for each key); `AddBulk` of a nil or empty map leaves the cache
unchanged. -/
theorem addBulk_getAll_roundtrip (r : Option Requirements) (m : List (K × V))
    (hm : (keysOf m).Nodup) :
    (∀ k : K, mapGet k ((New r : Cache K V).AddBulk m).GetAll = mapGet k m)
    ∧ (∀ c : Cache K V, c.AddBulk [] = c) := by
  constructor
  · intro k
    have hwf : WF ((New r : Cache K V).AddBulk m) :=
      WF_AddBulk _ m List.nodup_nil
    show mapGet k ((New r : Cache K V).AddBulk m).copyValues = mapGet k m
    rw [mapGet_copyValues _ k hwf]
    cases h : mapGet k m with
    | none =>
      have hk : k ∉ keysOf m := (mapGet_eq_none_iff k m).mp h
      rw [mapGet_AddBulk_not_mem _ m k hk]
      rfl
    | some v =>
      exact mapGet_AddBulk_mem _ m k v hm h
  · intro c
    rfl

theorem addBulk_getAll_roundtrip_witness :
    (keysOf [(1, 10), (2, 20), (3, 30)] : List Nat).Nodup
    ∧ mapGet 2 ((New none : Cache Nat Nat).AddBulk [(1, 10), (2, 20), (3, 30)]).GetAll
        = some 20 := by
  refine ⟨by decide, ?_⟩
  rw [(addBulk_getAll_roundtrip none [(1, 10), (2, 20), (3, 30)] (by decide)).1 2]
  decide

/-- Claim C6: `Remove` is idempotent — removing the same key twice leaves the
cache in the same state as removing it once; removing an absent key leaves
the cache completely unchanged (and, total function that it is, signals no
error); the same holds per-key for `RemoveBulk`. -/
theorem remove_idempotent (c : Cache K V) (k : K) :
    (c.Remove k).Remove k = c.Remove k
    ∧ (mapGet k c.data = none → c.Remove k = c)
    ∧ (∀ ks : List K, c.RemoveBulk (k :: k :: ks) = c.RemoveBulk (k :: ks))
    ∧ (mapGet k c.data = none → c.RemoveBulk [k] = c) := by
  refine ⟨remove_remove c k, fun h => remove_absent c k h, ?_, ?_⟩
  · intro ks
    show (if (k :: k :: ks).length < 1 then c
        else (k :: k :: ks).foldl (fun c k => c.remove k) c)
      = (if (k :: ks).length < 1 then c
        else (k :: ks).foldl (fun c k => c.remove k) c)
    rw [if_neg (by simp), if_neg (by simp), List.foldl_cons, List.foldl_cons,
      List.foldl_cons, remove_remove c k]
  · intro h
    show (if ([k] : List K).length < 1 then c
        else [k].foldl (fun c k => c.remove k) c) = c
    rw [if_neg (by simp), List.foldl_cons, List.foldl_nil, remove_absent c k h]

theorem remove_idempotent_witness :
    mapGet 5 ((New none : Cache Nat Nat).Add 1 2).data = none
    ∧ ((New none : Cache Nat Nat).Add 1 2).Remove 5 = (New none : Cache Nat Nat).Add 1 2
    ∧ (((New none : Cache Nat Nat).Add 1 2).Remove 1).Remove 1
        = ((New none : Cache Nat Nat).Add 1 2).Remove 1 := by
  refine ⟨by decide, ?_, ?_⟩
  · exact (remove_idempotent ((New none : Cache Nat Nat).Add 1 2) 5).2.1 (by decide)
  · exact (remove_idempotent ((New none : Cache Nat Nat).Add 1 2) 1).1

/-- Claim C7: construction with a nil `Requirements` pointer yields
`timeoutInUse = false`; with a non-nil one, `timeoutInUse` is true exactly
when `DefaultTimeout` is non-zero; the stored `Requirements` are computed
once at construction and no subsequent cache operation changes them. -/
theorem requirements_fixed_at_construction [Inhabited V] :
    ((New none : Cache K V).Requirements.timeoutInUse = false)
    ∧ (∀ r : Requirements,
        ((New (some r) : Cache K V).Requirements.timeoutInUse = true
          ↔ ¬ r.DefaultTimeout = 0))
    ∧ (∀ (c : Cache K V) (ops : List (MutOp K V)),
        (c.applyOps ops).Requirements = c.Requirements) := by
  refine ⟨rfl, ?_, ?_⟩
  · intro r
    simp [New, makeRequirementsSensible]
  · intro c ops
    induction ops generalizing c with
    | nil => rfl
    | cons op rest ih =>
      show ((c.applyOp op).applyOps rest).Requirements = c.Requirements
      rw [ih (c.applyOp op), Requirements_applyOp c op]

theorem requirements_fixed_at_construction_witness :
    ((New none : Cache Nat Nat).Requirements.timeoutInUse = false)
    ∧ ((New (some { DefaultTimeout := 7, timeoutInUse := false })
        : Cache Nat Nat).Requirements.timeoutInUse = true)
    ∧ (((New none : Cache Nat Nat).applyOps
          [MutOp.addOp 1 10, MutOp.resetOp]).Requirements
        = (New none : Cache Nat Nat).Requirements) := by
  refine ⟨(requirements_fixed_at_construction (K := Nat) (V := Nat)).1, ?_, ?_⟩
  · exact ((requirements_fixed_at_construction (K := Nat) (V := Nat)).2.1
      { DefaultTimeout := 7, timeoutInUse := false }).mpr (by decide)
  · exact (requirements_fixed_at_construction (K := Nat) (V := Nat)).2.2
      (New none) [MutOp.addOp 1 10, MutOp.resetOp]

/-- Claim C10: `GetBulk(d)` returns a map whose key set is exactly the set of
keys occurring in `d` (duplicates collapsed); every requested key absent from
the cache is mapped to the zero value of the value type (so nothing
distinguishes it from a stored zero value); a nil or empty `d` yields an
empty map. -/
theorem getBulk_spec [Inhabited V] (c : Cache K V) (d : List K) :
    c.GetBulk [] = []
    ∧ (∀ k : K, (mapGet k (c.GetBulk d)).isSome = true ↔ k ∈ d)
    ∧ (∀ k : K, k ∈ d →
        mapGet k (c.GetBulk d) = some ((mapGet k c.data).getD zeroEntry).Val)
    ∧ (∀ k : K, k ∈ d → mapGet k c.data = none →
        mapGet k (c.GetBulk d) = some (default : V)) := by
  have hfold : ∀ k : K, mapGet k (c.GetBulk d)
      = if k ∈ d then some ((mapGet k c.data).getD zeroEntry).Val
        else none := by
    intro k
    show mapGet k (d.foldl (fun results k =>
        mapSet k ((mapGet k c.data).getD zeroEntry).Val results) [])
      = _
    rw [foldl_mapSet_keyfn (fun k => ((mapGet k c.data).getD zeroEntry).Val) k d []]
    by_cases h : k ∈ d <;> simp [h]
  refine ⟨rfl, ?_, ?_, ?_⟩
  · intro k
    rw [hfold k]
    by_cases h : k ∈ d <;> simp [h]
  · intro k h
    rw [hfold k, if_pos h]
  · intro k h habs
    rw [hfold k, if_pos h, habs]
    rfl

theorem getBulk_spec_witness :
    (1 : Nat) ∈ [1, 3]
    ∧ mapGet 3 (((New none : Cache Nat Nat).Add 1 10).GetBulk [1, 3]) = some 0
    ∧ mapGet 1 (((New none : Cache Nat Nat).Add 1 10).GetBulk [1, 3]) = some 10 := by
  refine ⟨by decide, ?_, ?_⟩
  · exact (getBulk_spec ((New none : Cache Nat Nat).Add 1 10) [1, 3]).2.2.2 3
      (by decide) (by decide)
  · have h := (getBulk_spec ((New none : Cache Nat Nat).Add 1 10) [1, 3]).2.2.1 1
      (by decide)
    rw [h]
    decide

end Claims

section SamplesLemmas

theorem grsLoop_eq (l : List (K × entry V)) :
    ∀ (n : Int) (res : List (K × V)),
      (keysOf l).Nodup →
      (∀ p ∈ l, p.1 ∉ keysOf res) →
      grsLoop n l res = res ++ (l.take n.toNat).map (fun p => (p.1, p.2.Val)) := by
  induction l with
  | nil =>
    intro n res _ _
    simp [grsLoop]
  | cons p rest ih =>
    intro n res hnd hdisj
    rw [keysOf_cons] at hnd
    have h1 : p.1 ∉ keysOf rest := (List.nodup_cons.mp hnd).1
    have h2 : (keysOf rest).Nodup := (List.nodup_cons.mp hnd).2
    rw [grsLoop]
    by_cases hn : n < 1
    · rw [if_pos hn]
      have : n.toNat = 0 := by omega
      rw [this, List.take_zero, List.map_nil, List.append_nil]
    · rw [if_neg hn]
      have hp : p.1 ∉ keysOf res := hdisj p (List.mem_cons_self p rest)
      have hdisj' : ∀ q ∈ rest, q.1 ∉ keysOf (res ++ [(p.1, p.2.Val)]) := by
        intro q hq
        rw [keysOf_append, List.mem_append]
        rintro (hc | hc)
        · exact hdisj q (List.mem_cons_of_mem p hq) hc
        · rw [show keysOf [(p.1, p.2.Val)] = [p.1] from rfl, List.mem_singleton] at hc
          exact h1 (hc ▸ List.mem_map.mpr ⟨q, hq, rfl⟩)
      rw [mapSet_of_not_mem p.1 p.2.Val res hp]
      have htake : n.toNat = (n - 1).toNat + 1 := by omega
      rw [ih (n - 1) (res ++ [(p.1, p.2.Val)]) h2 hdisj', htake,
        List.take_succ_cons, List.map_cons, List.append_assoc, List.singleton_append]

theorem getRandomSamples_eq (c : Cache K V) (n : Int) (hw : WF c) :
    c.GetRandomSamples n = (c.data.take n.toNat).map (fun p => (p.1, p.2.Val)) := by
  rw [Cache.GetRandomSamples, grsLoop_eq c.data n [] hw (by intro p _; simp)]
  rfl

end SamplesLemmas

section Claims2

/-- Claim C9: `GetRandomSamples(n)` returns exactly `min n Count()` entries
for `n ≥ 0` (in particular all entries when `n` exceeds the live count), an
empty map for `n ≤ 0`, and every returned key/value pair is present in the
cache with that value. -/
theorem getRandomSamples_spec (c : Cache K V) (n : Int) (hw : WF c) :
    (c.GetRandomSamples n).length = min n.toNat c.Count
    ∧ (n ≤ 0 → c.GetRandomSamples n = [])
    ∧ (∀ (k : K) (v : V), (k, v) ∈ c.GetRandomSamples n →
        (mapGet k c.data).map entry.Val = some v) := by
  rw [getRandomSamples_eq c n hw]
  refine ⟨?_, ?_, ?_⟩
  · rw [List.length_map, List.length_take]
    rfl
  · intro hn
    have : n.toNat = 0 := by omega
    rw [this, List.take_zero, List.map_nil]
  · intro k v hm
    rcases List.mem_map.mp hm with ⟨p, hp, heq⟩
    have hpd : p ∈ c.data := (List.take_sublist n.toNat c.data).mem hp
    have hk : p.1 = k := congrArg Prod.fst heq
    have hv : p.2.Val = v := congrArg Prod.snd heq
    have hpair : (p.1, p.2) ∈ c.data := hpd
    rw [← hk, mapGet_of_mem p.1 p.2 c.data hw hpair, Option.map_some', hv]

theorem getRandomSamples_spec_witness :
    WF (((New none : Cache Nat Nat).Add 1 10).Add 2 20)
    ∧ ((((New none : Cache Nat Nat).Add 1 10).Add 2 20).GetRandomSamples 5).length = 2
    ∧ (((New none : Cache Nat Nat).Add 1 10).Add 2 20).GetRandomSamples (-3) = [] := by
  refine ⟨by decide, ?_, ?_⟩
  · rw [(getRandomSamples_spec (((New none : Cache Nat Nat).Add 1 10).Add 2 20) 5
      (by decide)).1]
    decide
  · exact (getRandomSamples_spec (((New none : Cache Nat Nat).Add 1 10).Add 2 20) (-3)
      (by decide)).2.1 (by decide)

/-- Claim C5: `Merge(a, b)` behaves as `a.AddBulk(b.GetAll())` — `b` is left
unchanged, every key bound in `b` ends up in `a` with `b`'s value, every key
absent from `b` keeps its binding in `a` untouched, and afterwards `a`'s
count is the size of the union of `a`'s and `b`'s original key sets. -/
theorem merge_spec (a b : Cache K V) (ha : WF a) (hb : WF b) :
    (Merge a b).2 = b
    ∧ (∀ (k : K) (e : entry V), mapGet k b.data = some e →
        (mapGet k (Merge a b).1.data).map entry.Val = some e.Val)
    ∧ (∀ k : K, mapGet k b.data = none →
        mapGet k (Merge a b).1.data = mapGet k a.data)
    ∧ (Merge a b).1.Count
        = ((keysOf a.data).toFinset ∪ (keysOf b.data).toFinset).card := by
  have hga : b.GetAll = b.data.map (fun p => (p.1, p.2.Val)) := copyValues_eq b hb
  have hkeys : keysOf b.GetAll = keysOf b.data := keysOf_copyValues b hb
  have hnd : (keysOf b.GetAll).Nodup := by rw [hkeys]; exact hb
  refine ⟨rfl, ?_, ?_, ?_⟩
  · intro k e he
    have hbg : mapGet k b.GetAll = some e.Val := by
      show mapGet k b.copyValues = some e.Val
      rw [mapGet_copyValues b k hb, he]
      rfl
    exact mapGet_AddBulk_mem a b.GetAll k e.Val hnd hbg
  · intro k he
    have hk : k ∉ keysOf b.GetAll := by
      rw [hkeys]
      exact (mapGet_eq_none_iff k b.data).mp he
    exact mapGet_AddBulk_not_mem a b.GetAll k hk
  · have hwf : WF (a.AddBulk b.GetAll) := WF_AddBulk a b.GetAll ha
    show (a.AddBulk b.GetAll).Count = _
    rw [count_eq_presentKeyCount _ hwf, presentKeyCount, keysOf_AddBulk_toFinset,
      hkeys]

theorem merge_spec_witness :
    ((Merge ((New none : Cache Nat Nat).Add 1 10)
        (((New none : Cache Nat Nat).Add 1 99).Add 2 20)).2
      = ((New none : Cache Nat Nat).Add 1 99).Add 2 20)
    ∧ (Merge ((New none : Cache Nat Nat).Add 1 10)
        (((New none : Cache Nat Nat).Add 1 99).Add 2 20)).1.Count = 2
    ∧ (mapGet 1 (Merge ((New none : Cache Nat Nat).Add 1 10)
        (((New none : Cache Nat Nat).Add 1 99).Add 2 20)).1.data).map entry.Val
      = some 99 := by
  have h := merge_spec ((New none : Cache Nat Nat).Add 1 10)
    (((New none : Cache Nat Nat).Add 1 99).Add 2 20) (by decide) (by decide)
  refine ⟨h.1, ?_, ?_⟩
  · rw [h.2.2.2]
    decide
  · refine h.2.1 1 { Val := 99, TimeoutDuration := 0, timerId := none } ?_
    decide

end Claims2

section TraceLemmas

theorem trace_count (l : List (TraceOp K V)) :
    ∀ c : Cache K V, WF c → (addKeys l).Nodup →
      (∀ k ∈ addKeys l, mapGet k c.data = none) →
      (runTrace c l).Count + presentRemoves c l = c.Count + numAdds l := by
  induction l with
  | nil =>
    intro c _ _ _
    simp [runTrace, presentRemoves, numAdds]
  | cons op rest ih =>
    intro c hw hnd habs
    cases op with
    | addT k v =>
      have hnd1 : k ∉ addKeys rest := (List.nodup_cons.mp hnd).1
      have hnd2 : (addKeys rest).Nodup := (List.nodup_cons.mp hnd).2
      have habsk : mapGet k c.data = none := habs k (List.mem_cons_self k _)
      have hknot : k ∉ keysOf c.data := (mapGet_eq_none_iff k c.data).mp habsk
      have habs' : ∀ k' ∈ addKeys rest, mapGet k' (c.Add k v).data = none := by
        intro k' hk'
        have hne : ¬ k = k' := fun he => hnd1 (he ▸ hk')
        rw [show (c.Add k v).data = (c.add k v).data from rfl,
          mapGet_add_ne c k k' v hne]
        exact habs k' (List.mem_cons_of_mem _ hk')
      have hcount : (c.Add k v).Count = c.Count + 1 := by
        rw [show (c.Add k v).Count = (c.add k v).Count from rfl, count_add,
          if_neg hknot]
      have := ih (c.Add k v) (WF_add c k v hw) hnd2 habs'
      show (runTrace (c.Add k v) rest).Count + presentRemoves (c.Add k v) rest
        = c.Count + (numAdds rest + 1)
      omega
    | removeT k =>
      have habs' : ∀ k' ∈ addKeys rest, mapGet k' (c.Remove k).data = none := by
        intro k' hk'
        by_cases hke : k' = k
        · subst hke
          exact mapGet_mapDel_self k' c.data
        · rw [show (c.Remove k).data = mapDel k c.data from rfl,
            mapGet_mapDel_ne k k' c.data hke]
          exact habs k' hk'
      have hrest := ih (c.Remove k) (WF_remove c k hw) hnd habs'
      show (runTrace (c.Remove k) rest).Count
          + ((if (mapGet k c.data).isSome then 1 else 0)
              + presentRemoves (c.Remove k) rest)
        = c.Count + numAdds rest
      by_cases hp : (mapGet k c.data).isSome
      · have hmem : k ∈ keysOf c.data := (mapGet_isSome_iff k c.data).mp hp
        have hcp := count_remove_present c k hw hmem
        have hcr : (c.Remove k).Count = (c.remove k).Count := rfl
        rw [if_pos hp]
        omega
      · have hnone : mapGet k c.data = none := by
          cases h : mapGet k c.data with
          | none => rfl
          | some e => rw [h] at hp; simp at hp
        have heq : c.Remove k = c := remove_absent c k hnone
        rw [if_neg hp]
        rw [heq] at hrest ⊢
        omega

end TraceLemmas

section Claims3

/-- Claim C1: starting from an empty cache, for any sequence of `Add` and
`Remove` calls whose `Add`s target pairwise-distinct keys, `Count()` equals
the number of `Add` calls minus the number of `Remove` calls that targeted
present keys; more generally, after every public mutating operation
`Count()` equals the number of keys currently present in the map, and
overwriting an existing key via `Add` does not change `Count()`. -/
theorem count_invariant [Inhabited V] :
    (∀ l : List (TraceOp K V), (addKeys l).Nodup →
      (runTrace (New none) l).Count + presentRemoves (New none) l = numAdds l
        ∧ (runTrace (New none) l).Count
            = numAdds l - presentRemoves (New none) l)
    ∧ (∀ (c : Cache K V) (op : MutOp K V), WF c →
        (c.applyOp op).Count = presentKeyCount (c.applyOp op))
    ∧ (∀ (c : Cache K V) (k : K) (v : V), (mapGet k c.data).isSome = true →
        (c.Add k v).Count = c.Count) := by
  refine ⟨?_, ?_, ?_⟩
  · intro l hnd
    have h := trace_count l (New none) List.nodup_nil hnd (by intro k _; rfl)
    have hz : (New none : Cache K V).Count = 0 := rfl
    constructor
    · omega
    · omega
  · intro c op hw
    exact count_eq_presentKeyCount (c.applyOp op) (WF_applyOp c op hw)
  · intro c k v h
    have hmem : k ∈ keysOf c.data := (mapGet_isSome_iff k c.data).mp h
    rw [show (c.Add k v).Count = (c.add k v).Count from rfl, count_add,
      if_pos hmem]

theorem count_invariant_witness :
    (addKeys [TraceOp.addT 1 10, TraceOp.addT (2 : Nat) (20 : Nat),
        TraceOp.removeT 1, TraceOp.removeT 3]).Nodup
    ∧ (runTrace (New none)
        [TraceOp.addT 1 10, TraceOp.addT (2 : Nat) (20 : Nat),
          TraceOp.removeT 1, TraceOp.removeT 3]).Count
      = 1
    ∧ (mapGet 1 ((New none : Cache Nat Nat).Add 1 10).data).isSome = true
    ∧ (((New none : Cache Nat Nat).Add 1 10).Add 1 99).Count
      = ((New none : Cache Nat Nat).Add 1 10).Count := by
  refine ⟨by decide, ?_, by decide, ?_⟩
  · have h := ((count_invariant (K := Nat) (V := Nat)).1
      [TraceOp.addT 1 10, TraceOp.addT 2 20, TraceOp.removeT 1, TraceOp.removeT 3]
      (by decide)).2
    rw [h]
    decide
  · exact (count_invariant (K := Nat) (V := Nat)).2.2
      ((New none : Cache Nat Nat).Add 1 10) 1 99 (by decide)

/-- Claim C2 counterexample: with the TTL active, overwriting key 1 does NOT
stop the previously armed timer — after `Add 1 10; Add 1 20` the first
timer (id 0) is still pending, and firing it deletes key 1, removing the
newer value 20 even though the newer entry's own timer (id 1) has not yet
fired. -/
theorem overwrite_keeps_stale_timer_cex :
    (0, 1) ∈ (((New (some { DefaultTimeout := 100, timeoutInUse := false })
        : Cache Nat Nat).Add 1 10).Add 1 20).pending
    ∧ mapGet 1 ((((New (some { DefaultTimeout := 100, timeoutInUse := false })
        : Cache Nat Nat).Add 1 10).Add 1 20).fireTimer 0).data = none
    ∧ (1, 1) ∈ ((((New (some { DefaultTimeout := 100, timeoutInUse := false })
        : Cache Nat Nat).Add 1 10).Add 1 20).fireTimer 0).pending := by
  decide

/-- Claim C2 amended: overwriting a key whose expiration timer is armed does
not stop the prior timer.  The prior timer stays pending across the `Add`;
when it fires, it removes the key — deleting the newer value — while the
newer entry's own timer is still pending (its TTL has not elapsed). -/
theorem overwrite_leaves_prior_timer_armed (c : Cache K V) (k : K) (v : V)
    (t : Nat) (hids : (keysOf c.pending).Nodup)
    (hlt : ∀ p ∈ c.pending, p.1 < c.nextId)
    (ht : (t, k) ∈ c.pending) (hu : c.Requirements.timeoutInUse = true) :
    (t, k) ∈ (c.Add k v).pending
    ∧ (c.nextId, k) ∈ (c.Add k v).pending
    ∧ mapGet k ((c.Add k v).fireTimer t).data = none
    ∧ (c.nextId, k) ∈ ((c.Add k v).fireTimer t).pending := by
  have hpend : (c.Add k v).pending = c.pending ++ [(c.nextId, k)] := by
    rw [show (c.Add k v).pending = (c.add k v).pending from rfl, add_pending,
      if_pos hu]
  have htlt : t < c.nextId := hlt (t, k) ht
  have hget : mapGet t (c.Add k v).pending = some k := by
    rw [hpend, mapGet_append, mapGet_of_mem t k c.pending hids ht]
  have hfire : (c.Add k v).fireTimer t
      = { (c.Add k v).remove k with
          pending := mapDel t ((c.Add k v).remove k).pending } := by
    rw [Cache.fireTimer, hget]
  refine ⟨?_, ?_, ?_, ?_⟩
  · rw [hpend]
    exact List.mem_append_left _ ht
  · rw [hpend]
    exact List.mem_append_right _ (List.mem_singleton.mpr rfl)
  · rw [hfire]
    exact mapGet_mapDel_self k _
  · rw [hfire]
    show (c.nextId, k) ∈ mapDel t (c.Add k v).pending
    rw [hpend]
    have hne : ¬ c.nextId = t := by omega
    rw [show mapDel t (c.pending ++ [(c.nextId, k)])
        = (c.pending ++ [(c.nextId, k)]).filter (fun p => decide (¬ p.1 = t))
      from rfl, List.mem_filter]
    constructor
    · exact List.mem_append_right _ (List.mem_singleton.mpr rfl)
    · simpa using hne

theorem overwrite_leaves_prior_timer_armed_witness :
    ((0, 1) ∈ ((New (some { DefaultTimeout := 100, timeoutInUse := false })
        : Cache Nat Nat).Add 1 10).pending)
    ∧ mapGet 1 (((((New (some { DefaultTimeout := 100, timeoutInUse := false })
        : Cache Nat Nat).Add 1 10).Add 1 20).fireTimer 0)).data = none := by
  have h := overwrite_leaves_prior_timer_armed
    ((New (some { DefaultTimeout := 100, timeoutInUse := false })
      : Cache Nat Nat).Add 1 10) 1 20 0
    (by decide) (by decide) (by decide) (by decide)
  exact ⟨by decide, h.2.2.1⟩

/-- Claim C8: the spec demands that every snapshot iteration over the live
map happen under a lock.  `GetAll` (read lock) and `GetAllAndRemove` (write
lock) comply, but `GetRandomSamples` ranges over the live `c.data` with no
lock acquired at all — the claim fails on the code. -/
theorem getRandomSamples_iterates_live_map_unlocked :
    lockedIteration GetRandomSamplesIteration = false
    ∧ GetRandomSamplesIteration.overLiveMap = true
    ∧ GetRandomSamplesIteration.lock = LockAcquired.noLock
    ∧ lockedIteration GetAllIteration = true
    ∧ lockedIteration GetAllAndRemoveIteration = true := by
  decide

end Claims3

end cacheMachine
